import Mathlib

/-!  Verification model of the pactus storage layer (`store/store.go`).

The façade `store` type and its public methods (`SaveBlock`, `Block`,
`BlockHash`, `BlockHeight`, `Transaction`, `LastCertificate`,
`WriteBatch`, locking discipline, ...) are embedded from the repository
source file `store/store.go`.  The sub-stores it delegates to
(`blockStore`, `txStore`, `accountStore`, `validatorStore`) are not part
of the provided sources; where a claim depends on them they are modelled
from the specification, and each such definition is marked
`Modelled from the spec:` in its doc comment.  -/

/-- Raw byte strings stored in the key-value engine.  Bytes are modelled
as natural numbers; no claim depends on the 0..255 bound. -/
abbrev Bytes := List Nat

/-- Account / validator address (opaque in the storage layer). -/
abbrev Addr := Nat

/-- Transaction id (a 32-byte hash in the source, opaque here). -/
abbrev TxID := Nat

/-- Keys of the embedded key-value engine.  In the source a key is a
one-byte table tag (`lastInfoKey = 0x00`, `blockPrefix = 0x01`,
`txPrefix = 0x03`, `accountPrefix = 0x05`, `validatorPrefix = 0x07`,
`blockHeightPrefix = 0x09`, `publicKeyPrefix = 0x0a`) followed by the
big-endian height, the 32-byte id/hash, or the address bytes.  The tags
are pairwise distinct and the per-table encodings injective, so the key
space is faithfully modelled as a disjoint sum. -/
inductive Key where
  | lastInfo : Key
  | blockK : Nat → Key
  | txPosK : TxID → Key
  | blockHeightK : Bytes → Key
  | accountK : Addr → Key
  | validatorK : Addr → Key
  | publicKeyK : Addr → Key
deriving DecidableEq

/-- The engine's durable table: an association list, newest binding
first (`tryGet` in the source returns the value stored for a key, or an
engine not-found error, modelled as `none`). -/
abbrev DB := List (Key × Bytes)

/-- `tryGet(db, key)` from the source: fetch the current value under a
key; `none` models the engine's not-found error. -/
def tryGet (db : DB) (k : Key) : Option Bytes :=
  (db.find? (fun p => decide (p.1 = k))).map (fun p => p.2)

/-- A pending leveldb batch: the list of `Put` operations in the order
they were enqueued (the source only ever calls `batch.Put`). -/
abbrev Batch := List (Key × Bytes)

/-- `batch.Put(key, value)`: enqueue one write at the end of the batch. -/
def batchPut (b : Batch) (k : Key) (v : Bytes) : Batch :=
  b ++ [(k, v)]

/-- Applying a batch to the durable table: operations are applied in
enqueue order, a later `Put` of the same key overwriting an earlier
one.  With a newest-first association list this is a fold that prepends
each binding. -/
def applyBatch (db : DB) (b : Batch) : DB :=
  b.foldl (fun d p => p :: d) db

/-- The façade `store` struct: the engine handle plus the single shared
pending batch (the leveldb handle, config and sub-store handles carry no
further state of their own). -/
structure StoreState where
  db : DB
  batch : Batch
deriving DecidableEq

/-- A freshly opened store over an empty engine. -/
def emptyStore : StoreState := ⟨[], []⟩

/-- `WriteBatch()` from the source: write the pending batch to the
engine; on engine failure (`fail = true`, an external event) the error
is returned and the batch is left as it was; on success the batch is
applied and then reset.  The first component is the returned error
(`some ()` = non-nil error). -/
def WriteBatch (fail : Bool) (s : StoreState) : Option Unit × StoreState :=
  if fail then
    (some (), s)
  else
    (none, ⟨applyBatch s.db s.batch, []⟩)

/-- Little-endian fixed-width 32-bit encoding of a value (the codec used
by `encoding.WriteElements` / `util.SliceToUint32` for stored values). -/
def enc32 (n : Nat) : Bytes :=
  [n % 256, n / 256 % 256, n / 256 ^ 2 % 256, n / 256 ^ 3 % 256]

/-- Read one little-endian 32-bit value off the front of a byte string;
fails when fewer than four bytes remain. -/
def dec32 : Bytes → Option (Nat × Bytes)
  | a :: b :: c :: d :: rest => some (a + 256 * (b + 256 * (c + 256 * d)), rest)
  | _ => none

theorem dec32_enc32 (n : Nat) (hn : n < 2 ^ 32) (rest : Bytes) :
    dec32 (enc32 n ++ rest) = some (n, rest) := by
  simp only [enc32, dec32, List.cons_append, List.nil_append]
  have : n % 256 + 256 * (n / 256 % 256 + 256 * (n / 256 ^ 2 % 256 + 256 * (n / 256 ^ 3 % 256)))
      = n := by omega
  rw [this]

/-- Byte-range slice `bs[i:j)` (Go's `data[i:j]` once the bound checks
have passed). -/
def sliceBytes (bs : Bytes) (i j : Nat) : Bytes :=
  (bs.drop i).take (j - i)

theorem tryGet_append (l₁ l₂ : DB) (k : Key) :
    tryGet (l₁ ++ l₂) k = (tryGet l₁ k).or (tryGet l₂ k) := by
  simp only [tryGet, List.find?_append]
  cases l₁.find? (fun p => decide (p.1 = k)) with
  | none => simp [Option.or]
  | some v => simp [Option.or]

theorem tryGet_cons_eq (d : DB) (k : Key) (v : Bytes) :
    tryGet ((k, v) :: d) k = some v := by
  simp [tryGet, List.find?]

theorem tryGet_cons_ne (d : DB) (k k' : Key) (v : Bytes) (h : k' ≠ k) :
    tryGet ((k', v) :: d) k = tryGet d k := by
  simp only [tryGet, List.find?]
  have : (decide ((k', v).1 = k)) = false := by simp [h]
  rw [this]

theorem applyBatch_eq (db : DB) (b : Batch) :
    applyBatch db b = b.reverse ++ db := by
  induction b generalizing db with
  | nil => simp [applyBatch]
  | cons p t ih =>
      simp only [applyBatch, List.foldl_cons, List.reverse_cons, List.append_assoc,
        List.singleton_append]
      exact ih (p :: db)

/-- `hash.HashSize` in the source: hashes are exactly 32 bytes. -/
def hashSize : Nat := 32

/-- `hash.UndefHash`: the all-zero 32-byte hash, returned by `BlockHash`
when the height is absent. -/
def undefHash : Bytes := List.replicate 32 0

/-- `hash.FromBytes`: succeeds exactly on 32-byte strings. -/
def hashFromBytes (bs : Bytes) : Option Bytes :=
  if bs.length = 32 then some bs else none

/-- A consensus certificate as the store sees it: its height plus its
variant-encoded body.  Modelled from the spec: the certificate type
lives outside the provided sources; the store only needs `Height()`,
`Encode` and `Decode`, with `Encode`/`Decode` a self-describing
round-tripping codec. -/
structure Certificate where
  height : Nat
  payload : Bytes
deriving DecidableEq

/-- Modelled from the spec: `cert.Encode` — a self-describing (variant)
serialization of the certificate: 32-bit height, 32-bit payload length,
payload bytes. -/
def certEncode (c : Certificate) : Bytes :=
  enc32 c.height ++ enc32 c.payload.length ++ c.payload

/-- Modelled from the spec: `cert.Decode` — reads back exactly the bytes
`certEncode` produced, failing on truncated input. -/
def certDecode (bs : Bytes) : Option Certificate :=
  match dec32 bs with
  | none => none
  | some (h, r1) =>
    match dec32 r1 with
    | none => none
    | some (len, r2) =>
      if r2.length < len then none else some ⟨h, r2.take len⟩

theorem certDecode_certEncode (c : Certificate)
    (h1 : c.height < 2 ^ 32) (h2 : c.payload.length < 2 ^ 32) :
    certDecode (certEncode c) = some c := by
  have e : certEncode c = enc32 c.height ++ (enc32 c.payload.length ++ c.payload) := by
    simp [certEncode]
  simp only [certDecode, e, dec32_enc32 c.height h1, dec32_enc32 c.payload.length h2]
  simp

/-- A transaction as contained in a block: its id and its serialized
bytes. -/
structure Tx where
  id : TxID
  data : Bytes
deriving DecidableEq

/-- A block as handed to `SaveBlock`: its hash and its own serialization,
split as the header-plus-certificate part followed by the concatenated
transaction encodings (the byte layout `saveBlock` walks to compute the
per-transaction regions). -/
structure Blk where
  hashBytes : Bytes
  headerData : Bytes
  txs : List Tx
deriving DecidableEq

/-- The block's own serialization (`blk.Encode`): header part followed by
each transaction's bytes in order. -/
def serializeBody (b : Blk) : Bytes :=
  b.headerData ++ (b.txs.map Tx.data).flatten

/-- A transaction position record: `height ‖ offset ‖ length`, locating
a transaction's bytes inside the stored (hash-prefixed) block value. -/
structure TxPos where
  height : Nat
  offset : Nat
  length : Nat
deriving DecidableEq

/-- The 12-byte stored form of a position record. -/
def posEncode (p : TxPos) : Bytes :=
  enc32 p.height ++ enc32 p.offset ++ enc32 p.length

/-- Modelled from the spec: `txStore.tx(id)` decodes the 12-byte record;
malformed or absent records are `none` (the NotFound path). -/
def posDecode (bs : Bytes) : Option TxPos :=
  match dec32 bs with
  | none => none
  | some (h, r1) =>
    match dec32 r1 with
    | none => none
    | some (o, r2) =>
      match dec32 r2 with
      | none => none
      | some (l, r3) => if r3 = [] then some ⟨h, o, l⟩ else none

theorem posDecode_posEncode (p : TxPos)
    (h1 : p.height < 2 ^ 32) (h2 : p.offset < 2 ^ 32) (h3 : p.length < 2 ^ 32) :
    posDecode (posEncode p) = some p := by
  have e : posEncode p = enc32 p.height ++ (enc32 p.offset ++ (enc32 p.length ++ [])) := by
    simp [posEncode]
  simp only [posDecode, e, dec32_enc32 p.height h1, dec32_enc32 p.offset h2,
    dec32_enc32 p.length h3]
  simp

/-- The position records `blockStore.saveBlock` computes while encoding:
transaction `i` starts where the previous bytes (hash, header, earlier
transactions) end.  Modelled from the spec: offsets index the stored
hash-prefixed block value. -/
def txRecords (h base : Nat) : List Tx → List (TxID × TxPos)
  | [] => []
  | t :: ts => (t.id, ⟨h, base, t.data.length⟩) :: txRecords h (base + t.data.length) ts

/-- `txStore.tx(id)`: resolve a position record from the engine. -/
def txStoreTx (db : DB) (id : TxID) : Option TxPos :=
  match tryGet db (Key.txPosK id) with
  | none => none
  | some bs => posDecode bs

/-- Modelled from the spec: `blockStore.blockHeight(hash)` — the
hash-to-height index lookup, `0` when absent. -/
def blockStoreHeight (db : DB) (hb : Bytes) : Nat :=
  match tryGet db (Key.blockHeightK hb) with
  | none => 0
  | some v =>
    match dec32 v with
    | none => 0
    | some (n, _) => n

/-- `SaveBlock(blk, cert)` from the source: `blockStore.saveBlock`
enqueues the hash-prefixed block value under the height key and the
height under the hash key and yields the per-transaction regions
(modelled from the spec, the sub-store being outside the provided
sources); `txStore.saveTx` enqueues each 12-byte region; finally the
last-certificate record `version ‖ certificate` is enqueued under the
singleton key.  Nothing is flushed. -/
def SaveBlock (s : StoreState) (blk : Blk) (cert : Certificate) : StoreState :=
  let height := cert.height
  let value := blk.hashBytes ++ serializeBody blk
  let recs := txRecords height (blk.hashBytes.length + blk.headerData.length) blk.txs
  let b1 := batchPut s.batch (Key.blockK height) value
  let b2 := batchPut b1 (Key.blockHeightK blk.hashBytes) (enc32 height)
  let b3 := b2 ++ recs.map (fun r => (Key.txPosK r.1, posEncode r.2))
  let b4 := batchPut b3 Key.lastInfo (enc32 1 ++ certEncode cert)
  { s with batch := b4 }

/-- The result of the façade `Block(height)`. -/
structure CommittedBlock where
  blockHash : Bytes
  height : Nat
  data : Bytes
deriving DecidableEq

/-- `Block(height)` from the source: fetch the stored value, take its
leading 32 bytes as the hash, and expose the rest as the block data. -/
def Block (s : StoreState) (height : Nat) : Option CommittedBlock :=
  match tryGet s.db (Key.blockK height) with
  | none => none
  | some data =>
    match hashFromBytes (sliceBytes data 0 hashSize) with
    | none => none
    | some hb => some ⟨hb, height, data.drop hashSize⟩

/-- `BlockHeight(hash)` from the source. -/
def BlockHeight (s : StoreState) (hb : Bytes) : Nat :=
  blockStoreHeight s.db hb

/-- `BlockHash(height)` from the source: the leading 32 bytes of the
stored value, or `UndefHash` when absent. -/
def BlockHash (s : StoreState) (height : Nat) : Bytes :=
  match tryGet s.db (Key.blockK height) with
  | none => undefHash
  | some data => (hashFromBytes (sliceBytes data 0 hashSize)).getD undefHash

/-- Outcome of the façade `Transaction(id)`.  `panicked` marks a Go
runtime panic (an out-of-range slice); `ok` carries the `CommittedTx`
fields (height, block time, transaction bytes). -/
inductive TxResult where
  | notFound : TxResult
  | badOffset : TxResult
  | panicked : TxResult
  | ok : Nat → Nat → Bytes → TxResult
deriving DecidableEq

/-- `Transaction(id)` from the source: resolve the position record,
fetch the owning block's stored bytes, guard `end > uint32(len(data))`
with `end = offset + length` computed in wrapping 32-bit unsigned
arithmetic, read the block time from bytes 33..36, and slice
`data[start:end]`.  The two Go slice expressions panic when their bound
checks fail (`len(data) < 37`, or `start > end`). -/
def Transaction (s : StoreState) (id : TxID) : TxResult :=
  match txStoreTx s.db id with
  | none => TxResult.notFound
  | some pos =>
    match tryGet s.db (Key.blockK pos.height) with
    | none => TxResult.notFound
    | some data =>
      let start := pos.offset
      let endv := (pos.offset + pos.length) % 2 ^ 32
      if endv > data.length % 2 ^ 32 then TxResult.badOffset
      else if data.length < hashSize + 5 then TxResult.panicked
      else
        let blockTime :=
          match dec32 (data.drop (hashSize + 1)) with
          | none => 0
          | some (n, _) => n
        if start ≤ endv ∧ endv ≤ data.length then
          TxResult.ok pos.height blockTime (sliceBytes data start endv)
        else TxResult.panicked

/-- `LastCertificate()` from the source: absent key means genesis
(`nil`); a version-read failure or certificate-decode failure also
returns `nil`. -/
def LastCertificate (s : StoreState) : Option Certificate :=
  match tryGet s.db Key.lastInfo with
  | none => none
  | some data =>
    match dec32 data with
    | none => none
    | some (_, rest) =>
      match certDecode rest with
      | none => none
      | some cert => some cert

/-- Serialized account record (opaque to the store). -/
abbrev AccountData := Bytes

/-- Ordered-table upsert, mirroring how the engine keeps keys in
lexicographic order: insert before the first larger key, replace an
equal key in place. -/
def tableUpsert {α : Type} : List (Nat × α) → Nat → α → List (Nat × α)
  | [], a, v => [(a, v)]
  | (b, w) :: t, a, v =>
    if a < b then (a, v) :: (b, w) :: t
    else if a = b then (a, v) :: t
    else (b, w) :: tableUpsert t a v

/-- Association-list lookup over a table. -/
def tableLookup {α : Type} (t : List (Nat × α)) (a : Nat) : Option α :=
  (t.find? (fun p => decide (p.1 = a))).map (fun p => p.2)

/-- Modelled from the spec: the account store — the engine's account
table (key order) plus the in-memory running total maintained by
`updateAccount`. -/
structure AccountStore where
  table : List (Addr × AccountData)
  total : Nat

/-- The account store of a freshly opened database. -/
def AccountStore.empty : AccountStore := ⟨[], 0⟩

/-- `hasAccount(addr)`: existence check used before a count update. -/
def hasAccount (st : AccountStore) (a : Addr) : Bool :=
  (tableLookup st.table a).isSome

/-- Modelled from the spec: `updateAccount(batch, addr, acc)` — upsert
the record; increment the total only when the address was previously
unseen. -/
def updateAccount (st : AccountStore) (a : Addr) (acc : AccountData) : AccountStore :=
  { table := tableUpsert st.table a acc,
    total := if hasAccount st a then st.total else st.total + 1 }

/-- `TotalAccounts()` from the source: the in-memory counter. -/
def TotalAccounts (st : AccountStore) : Nat := st.total

/-- One pass of the iteration: visit each entry in table order, stopping
after the consumer signals stop. -/
def visitWhile {α : Type} : List (Nat × α) → (Nat → α → Bool) → List Nat
  | [], _ => []
  | (a, v) :: rest, f => if f a v then [a] else a :: visitWhile rest f

/-- Modelled from the spec: `IterateAccounts(consumer)` — ordered
full-table iteration with early stop; the value returned here is the
sequence of visited addresses. -/
def IterateAccounts (st : AccountStore) (f : Addr → AccountData → Bool) : List Addr :=
  visitWhile st.table f

/-- Fold a call sequence of `UpdateAccount` over a fresh store. -/
def applyAccountOps (ops : List (Addr × AccountData)) : AccountStore :=
  ops.foldl (fun st p => updateAccount st p.1 p.2) AccountStore.empty

/-- A validator record as the store keeps it: the stable validator
number plus the rest of the serialized validator. -/
structure ValInfo where
  num : Nat
  payload : Bytes
deriving DecidableEq

/-- Modelled from the spec: the validator store — the engine's validator
table (key order) plus the in-memory running total. -/
structure ValidatorStore where
  table : List (Addr × ValInfo)
  total : Nat

/-- The validator store of a freshly opened database. -/
def ValidatorStore.empty : ValidatorStore := ⟨[], 0⟩

/-- The validator record currently stored for an address. -/
def valOf (st : ValidatorStore) (a : Addr) : Option ValInfo :=
  tableLookup st.table a

/-- The largest validator number present in the table (`0` when empty). -/
def maxValNum (t : List (Addr × ValInfo)) : Nat :=
  t.foldr (fun p m => max p.2.num m) 0

/-- Modelled from the spec: `updateValidator(batch, v)` — on first sight
of an address, assign the ordinal one past the current maximum and bump
the total; afterwards only the other fields are updated, the assigned
number never changes. -/
def updateValidator (st : ValidatorStore) (a : Addr) (p : Bytes) : ValidatorStore :=
  match valOf st a with
  | some old => { st with table := tableUpsert st.table a ⟨old.num, p⟩ }
  | none =>
      { table := tableUpsert st.table a ⟨maxValNum st.table + 1, p⟩,
        total := st.total + 1 }

/-- `TotalValidators()` from the source: the in-memory counter. -/
def TotalValidators (st : ValidatorStore) : Nat := st.total

/-- Fold a call sequence of `UpdateValidator` over a fresh store. -/
def applyValidatorOps (ops : List (Addr × Bytes)) : ValidatorStore :=
  ops.foldl (fun st p => updateValidator st p.1 p.2) ValidatorStore.empty

/-- The lock a façade method takes for its full duration. -/
inductive LockKind where
  | exclusive : LockKind
  | shared : LockKind
  | noLock : LockKind
deriving DecidableEq

/-- The public operations of the storage façade (`Store` interface
methods implemented on `store`). -/
inductive StoreOp where
  | close | saveBlock | block | blockHeight | blockHash | publicKey
  | transaction | anyRecentTransaction | hasAccount | account
  | totalAccounts | iterateAccounts | updateAccount | hasValidator
  | validatorAddresses | validator | validatorByNumber | totalValidators
  | iterateValidators | updateValidator | lastCertificate | writeBatch
deriving DecidableEq

/-- Which lock each public method acquires, transcribed from the body of
each method in the source: `s.lk.Lock()` (exclusive), `s.lk.RLock()`
(shared), or no lock statement at all. -/
def lockOf : StoreOp → LockKind
  | StoreOp.close => LockKind.exclusive
  | StoreOp.saveBlock => LockKind.exclusive
  | StoreOp.block => LockKind.exclusive
  | StoreOp.blockHeight => LockKind.exclusive
  | StoreOp.blockHash => LockKind.exclusive
  | StoreOp.publicKey => LockKind.noLock
  | StoreOp.transaction => LockKind.exclusive
  | StoreOp.anyRecentTransaction => LockKind.exclusive
  | StoreOp.hasAccount => LockKind.exclusive
  | StoreOp.account => LockKind.exclusive
  | StoreOp.totalAccounts => LockKind.exclusive
  | StoreOp.iterateAccounts => LockKind.exclusive
  | StoreOp.updateAccount => LockKind.exclusive
  | StoreOp.hasValidator => LockKind.exclusive
  | StoreOp.validatorAddresses => LockKind.shared
  | StoreOp.validator => LockKind.exclusive
  | StoreOp.validatorByNumber => LockKind.exclusive
  | StoreOp.totalValidators => LockKind.exclusive
  | StoreOp.iterateValidators => LockKind.exclusive
  | StoreOp.updateValidator => LockKind.exclusive
  | StoreOp.lastCertificate => LockKind.exclusive
  | StoreOp.writeBatch => LockKind.exclusive

/-- C4: `WriteBatch` on engine failure returns the error with the
pending batch untouched; on success it reports no error, resets the
batch, and every enqueued mutation (newest Put of a key winning) is
visible to subsequent reads; flushing an empty batch is a successful
no-op. -/
theorem writeBatch_contract (s : StoreState) (k : Key) :
    WriteBatch true s = (some (), s) ∧
    (WriteBatch false s).1 = none ∧
    (WriteBatch false s).2.batch = [] ∧
    tryGet (WriteBatch false s).2.db k = (tryGet s.batch.reverse k).or (tryGet s.db k) ∧
    (s.batch = [] → WriteBatch false s = (none, s)) := by
  refine ⟨rfl, rfl, rfl, ?_, ?_⟩
  · simp [WriteBatch, applyBatch_eq, tryGet_append]
  · intro h
    cases s with
    | mk db batch => simp_all [WriteBatch, applyBatch]

/-- Witness for C4 at a concrete store, batch and key. -/
theorem writeBatch_contract_witness :
    WriteBatch true ⟨[], [(Key.lastInfo, [1])]⟩ = (some (), ⟨[], [(Key.lastInfo, [1])]⟩) ∧
    tryGet (WriteBatch false ⟨[], [(Key.lastInfo, [1])]⟩).2.db Key.lastInfo = some [1] ∧
    WriteBatch false ⟨[(Key.lastInfo, [2])], []⟩ = (none, ⟨[(Key.lastInfo, [2])], []⟩) := by
  have h1 := writeBatch_contract ⟨[], [(Key.lastInfo, [1])]⟩ Key.lastInfo
  have h2 := writeBatch_contract ⟨[(Key.lastInfo, [2])], []⟩ Key.lastInfo
  refine ⟨h1.1, ?_, h2.2.2.2.2 rfl⟩
  rw [h1.2.2.2.1]
  decide

/-- C9 counterexample: `PublicKey` acquires no lock at all, so the claim
that it (like every public read) takes the exclusive lock fails on the
code. -/
theorem lockOf_publicKey_noLock :
    lockOf StoreOp.publicKey = LockKind.noLock ∧
    lockOf StoreOp.publicKey ≠ LockKind.exclusive := by
  decide

/-- C9 amended: every public façade operation takes the process-wide
exclusive lock for its duration, except `ValidatorAddresses` (shared
read lock) and `PublicKey` (no lock at all). -/
theorem lock_discipline (op : StoreOp) :
    lockOf op =
      if op = StoreOp.validatorAddresses then LockKind.shared
      else if op = StoreOp.publicKey then LockKind.noLock
      else LockKind.exclusive := by
  cases op <;> rfl

/-- A store holding one block of 100 bytes and a position record whose
offset sits 8 below the uint32 wrap, with length 16. -/
def overflowStore : StoreState :=
  ⟨[(Key.txPosK 5, posEncode ⟨1, 2 ^ 32 - 8, 16⟩),
    (Key.blockK 1, List.replicate 100 0)], []⟩

/-- C10: the guard computes `end = offset + length` in wrapping 32-bit
arithmetic; for the record (offset = 2^32 - 8, length = 16) over a
100-byte stored block the true range exceeds 2^32, the wrapped end is 8,
the `end > len(data)` guard does not fire, and the slice attempt with
`start > end` panics instead of returning BadOffset. -/
theorem transaction_wrap_guard :
    (2 ^ 32 - 8) + 16 > 2 ^ 32 ∧
    ((2 ^ 32 - 8) + 16) % 2 ^ 32 = 8 ∧
    txStoreTx overflowStore.db 5 = some ⟨1, 2 ^ 32 - 8, 16⟩ ∧
    ¬ ((2 ^ 32 - 8 + 16) % 2 ^ 32 > (List.replicate 100 0 : Bytes).length % 2 ^ 32) ∧
    Transaction overflowStore 5 = TxResult.panicked ∧
    Transaction overflowStore 5 ≠ TxResult.badOffset := by
  decide

/-- C1: a stored position record whose true byte range
`[2^32 - 8, 2^32 + 8)` exceeds the 100-byte stored block makes
`Transaction` panic on the out-of-range slice instead of returning the
distinct BadOffset error the claim (and spec) require. -/
theorem transaction_overflow_panics :
    (2 ^ 32 - 8) + 16 > (List.replicate 100 0 : Bytes).length ∧
    Transaction overflowStore 5 = TxResult.panicked := by
  decide

/-- C6 counterexample: a present-but-malformed singleton record (the
1-byte value `[7]` fails the version read) makes `LastCertificate`
return `nil` — exactly the result of the absent-key (genesis) case, so
the two outcomes are not distinguished. -/
theorem lastCertificate_malformed_nil :
    LastCertificate ⟨[(Key.lastInfo, [7])], []⟩ = none ∧
    LastCertificate emptyStore = none := by
  decide

/-- C6 amended: a nil result covers both genesis (no record under the
singleton key) and corruption: every stored byte string that fails the
version read or the certificate decode makes `LastCertificate` return
`nil`, the same result as the absent-key case. -/
theorem lastCertificate_decode_failure (bs : Bytes) (db : DB)
    (h : dec32 bs = none ∨ ∃ v rest, dec32 bs = some (v, rest) ∧ certDecode rest = none) :
    LastCertificate ⟨(Key.lastInfo, bs) :: db, []⟩ = none ∧
    LastCertificate emptyStore = none := by
  refine ⟨?_, rfl⟩
  rcases h with h | ⟨v, rest, h1, h2⟩
  · simp [LastCertificate, tryGet_cons_eq, h]
  · simp [LastCertificate, tryGet_cons_eq, h1, h2]

/-- Witness for C6 amended at the concrete malformed record `[7]`. -/
theorem lastCertificate_decode_failure_witness :
    LastCertificate ⟨[(Key.lastInfo, [7]), (Key.blockK 1, [0])], []⟩ = none ∧
    LastCertificate emptyStore = none :=
  lastCertificate_decode_failure [7] [(Key.blockK 1, [0])] (Or.inl rfl)

/-- One block commit: `SaveBlock` followed by a successful `WriteBatch`
(the pattern the consensus engine drives). -/
def commitOne (s : StoreState) (blk : Blk) (cert : Certificate) : StoreState :=
  (WriteBatch false (SaveBlock s blk cert)).2

theorem commitOne_db (s : StoreState) (blk : Blk) (cert : Certificate) :
    (commitOne s blk cert).db =
      (Key.lastInfo, enc32 1 ++ certEncode cert) ::
        (((txRecords cert.height (blk.hashBytes.length + blk.headerData.length) blk.txs).map
            (fun r => (Key.txPosK r.1, posEncode r.2))).reverse ++
          ((Key.blockHeightK blk.hashBytes, enc32 cert.height) ::
            (Key.blockK cert.height, blk.hashBytes ++ serializeBody blk) ::
              (s.batch.reverse ++ s.db))) := by
  simp [commitOne, WriteBatch, SaveBlock, applyBatch_eq, batchPut, List.reverse_append]

theorem tryGet_txPuts_none (recs : List (TxID × TxPos)) (k : Key)
    (hk : ∀ id, k ≠ Key.txPosK id) :
    tryGet ((recs.map (fun r => (Key.txPosK r.1, posEncode r.2))).reverse) k = none := by
  have h : ((recs.map (fun r => (Key.txPosK r.1, posEncode r.2))).reverse).find?
      (fun p => decide (p.1 = k)) = none := by
    rw [List.find?_eq_none]
    intro x hx
    simp only [List.mem_reverse, List.mem_map] at hx
    obtain ⟨r, _, rfl⟩ := hx
    simp only [decide_eq_true_eq]
    exact fun he => hk r.1 he.symm
  simp [tryGet, h]

theorem tryGet_recs_not_mem (recs : List (TxID × TxPos)) (id : TxID)
    (h : id ∉ recs.map Prod.fst) :
    tryGet ((recs.map (fun r => (Key.txPosK r.1, posEncode r.2))).reverse)
      (Key.txPosK id) = none := by
  have hf : ((recs.map (fun r => (Key.txPosK r.1, posEncode r.2))).reverse).find?
      (fun p => decide (p.1 = Key.txPosK id)) = none := by
    rw [List.find?_eq_none]
    intro x hx
    simp only [List.mem_reverse, List.mem_map] at hx
    obtain ⟨r, hr, rfl⟩ := hx
    simp only [decide_eq_true_eq, Key.txPosK.injEq]
    intro he
    exact h (he ▸ List.mem_map_of_mem Prod.fst hr)
  simp [tryGet, hf]

theorem tryGet_recs_mem (recs : List (TxID × TxPos))
    (hnd : (recs.map Prod.fst).Nodup) (p : TxID × TxPos) (hp : p ∈ recs) :
    tryGet ((recs.map (fun r => (Key.txPosK r.1, posEncode r.2))).reverse)
      (Key.txPosK p.1) = some (posEncode p.2) := by
  induction recs with
  | nil => cases hp
  | cons r rest ih =>
      simp only [List.map_cons, List.reverse_cons]
      rw [tryGet_append]
      rw [List.map_cons, List.nodup_cons] at hnd
      obtain ⟨hnot, hnd'⟩ := hnd
      rcases List.mem_cons.mp hp with rfl | hp'
      · rw [tryGet_recs_not_mem rest p.1 hnot]
        simp [Option.none_or, tryGet_cons_eq]
      · rw [ih hnd' hp']
        simp

theorem txRecords_fst (h base : Nat) (ts : List Tx) :
    (txRecords h base ts).map Prod.fst = ts.map Tx.id := by
  induction ts generalizing base with
  | nil => rfl
  | cons t ts ih => simp [txRecords, ih]

/-- Each transaction of a block owns a position record whose slice of the
stored (hash-prefixed) block value recovers exactly its bytes. -/
theorem txRecords_spec (h : Nat) (ts : List Tx) (pre : Bytes) (t : Tx) (ht : t ∈ ts) :
    ∃ p, p ∈ txRecords h pre.length ts ∧ p.1 = t.id ∧ p.2.height = h ∧
      p.2.length = t.data.length ∧ pre.length ≤ p.2.offset ∧
      p.2.offset + p.2.length ≤ pre.length + ((ts.map Tx.data).flatten).length ∧
      sliceBytes (pre ++ (ts.map Tx.data).flatten) p.2.offset (p.2.offset + p.2.length)
        = t.data := by
  induction ts generalizing pre with
  | nil => cases ht
  | cons u us ih =>
      rcases List.mem_cons.mp ht with rfl | ht'
      · refine ⟨(t.id, ⟨h, pre.length, t.data.length⟩), by simp [txRecords], rfl, rfl, rfl,
          Nat.le_refl _, ?_, ?_⟩
        · simp only [List.map_cons, List.flatten_cons, List.length_append]
          omega
        · simp only [List.map_cons, List.flatten_cons, sliceBytes]
          rw [List.drop_left' rfl, Nat.add_sub_cancel_left, List.take_left' rfl]
      · obtain ⟨p, hp, h1, h2, h3, h4, h5, h6⟩ := ih (pre ++ u.data) ht'
        have hlen : (pre ++ u.data).length = pre.length + u.data.length :=
          List.length_append pre u.data
        refine ⟨p, ?_, h1, h2, h3, ?_, ?_, ?_⟩
        · simp only [txRecords, List.mem_cons]
          right
          rw [← hlen]
          exact hp
        · omega
        · simp only [List.map_cons, List.flatten_cons, List.length_append] at h5 ⊢
          omega
        · simp only [List.map_cons, List.flatten_cons]
          rw [← List.append_assoc]
          exact h6

/-- Slicing after stripping a common 32-byte head: the façade's
`CommittedBlock.Data` view of a record's range. -/
theorem sliceBytes_shift (full : Bytes) (c o j : Nat) (hc : c ≤ o) :
    sliceBytes (full.drop c) (o - c) (j - c) = sliceBytes full o j := by
  simp only [sliceBytes, List.drop_drop]
  have e1 : c + (o - c) = o := by omega
  have e2 : j - c - (o - c) = j - o := by omega
  rw [e1, e2]

theorem commitOne_tryGet_block (s : StoreState) (blk : Blk) (cert : Certificate) :
    tryGet (commitOne s blk cert).db (Key.blockK cert.height)
      = some (blk.hashBytes ++ serializeBody blk) := by
  rw [commitOne_db, tryGet_cons_ne _ _ _ _ (by simp), tryGet_append,
    tryGet_txPuts_none _ _ (fun id => by simp), Option.none_or,
    tryGet_cons_ne _ _ _ _ (by simp), tryGet_cons_eq]

theorem commitOne_tryGet_height (s : StoreState) (blk : Blk) (cert : Certificate) :
    tryGet (commitOne s blk cert).db (Key.blockHeightK blk.hashBytes)
      = some (enc32 cert.height) := by
  rw [commitOne_db, tryGet_cons_ne _ _ _ _ (by simp), tryGet_append,
    tryGet_txPuts_none _ _ (fun id => by simp), Option.none_or, tryGet_cons_eq]

theorem commitOne_tryGet_last (s : StoreState) (blk : Blk) (cert : Certificate) :
    tryGet (commitOne s blk cert).db Key.lastInfo
      = some (enc32 1 ++ certEncode cert) := by
  rw [commitOne_db, tryGet_cons_eq]

/-- C3: a block committed through `SaveBlock` + `WriteBatch` stores a
value whose leading 32 bytes are the block hash, so `Block(h).BlockHash`
and `BlockHash(h)` both return that hash, and the hash-to-height index
inverts the block table: `BlockHeight(BlockHash(h)) = h`. -/
theorem block_hash_height_inverse (s : StoreState) (blk : Blk) (cert : Certificate)
    (hlen : blk.hashBytes.length = 32) (hh : cert.height < 2 ^ 32) :
    (tryGet (commitOne s blk cert).db (Key.blockK cert.height)).map (fun d => d.take 32)
        = some blk.hashBytes ∧
    Block (commitOne s blk cert) cert.height
        = some ⟨blk.hashBytes, cert.height, serializeBody blk⟩ ∧
    BlockHash (commitOne s blk cert) cert.height = blk.hashBytes ∧
    BlockHeight (commitOne s blk cert) (BlockHash (commitOne s blk cert) cert.height)
        = cert.height := by
  have hval := commitOne_tryGet_block s blk cert
  have htake : (blk.hashBytes ++ serializeBody blk).take 32 = blk.hashBytes :=
    List.take_left' hlen
  have hslice : sliceBytes (blk.hashBytes ++ serializeBody blk) 0 hashSize = blk.hashBytes := by
    simp only [sliceBytes, hashSize, List.drop_zero, Nat.sub_zero]
    exact htake
  have hfrom : hashFromBytes (sliceBytes (blk.hashBytes ++ serializeBody blk) 0 hashSize)
      = some blk.hashBytes := by
    rw [hslice, hashFromBytes, if_pos hlen]
  have hdrop : (blk.hashBytes ++ serializeBody blk).drop hashSize = serializeBody blk := by
    simp only [hashSize]
    exact List.drop_left' hlen
  have hbh : BlockHash (commitOne s blk cert) cert.height = blk.hashBytes := by
    simp only [BlockHash, hval, hfrom, Option.getD_some]
  refine ⟨by rw [hval]; simp [htake], ?_, hbh, ?_⟩
  · simp only [Block, hval, hfrom, hdrop]
  · rw [hbh]
    simp only [BlockHeight, blockStoreHeight, commitOne_tryGet_height s blk cert]
    rw [← List.append_nil (enc32 cert.height), dec32_enc32 cert.height hh]

/-- A small concrete block and certificate used by the witnesses. -/
def demoBlk0 : Blk := ⟨List.replicate 32 1, List.replicate 5 2, []⟩

/-- Certificate for `demoBlk0`, height 1. -/
def demoCert0 : Certificate := ⟨1, [3]⟩

/-- Witness for C3 at the concrete block `demoBlk0` committed at height 1. -/
theorem block_hash_height_inverse_witness :
    (tryGet (commitOne emptyStore demoBlk0 demoCert0).db (Key.blockK 1)).map
        (fun d => d.take 32) = some (List.replicate 32 1) ∧
    Block (commitOne emptyStore demoBlk0 demoCert0) 1
        = some ⟨List.replicate 32 1, 1, serializeBody demoBlk0⟩ ∧
    BlockHash (commitOne emptyStore demoBlk0 demoCert0) 1 = List.replicate 32 1 ∧
    BlockHeight (commitOne emptyStore demoBlk0 demoCert0)
        (BlockHash (commitOne emptyStore demoBlk0 demoCert0) 1) = 1 :=
  block_hash_height_inverse emptyStore demoBlk0 demoCert0 (by decide) (by decide)

theorem lastCertificate_commitOne (s : StoreState) (blk : Blk) (cert : Certificate)
    (h1 : cert.height < 2 ^ 32) (h2 : cert.payload.length < 2 ^ 32) :
    LastCertificate (commitOne s blk cert) = some cert := by
  have hd : dec32 (enc32 1 ++ certEncode cert) = some (1, certEncode cert) :=
    dec32_enc32 1 (by norm_num) _
  simp only [LastCertificate, commitOne_tryGet_last s blk cert, hd,
    certDecode_certEncode cert h1 h2]

/-- A run of block commits, each `SaveBlock` followed by a successful
`WriteBatch`, starting from a fresh store. -/
def commitRun (items : List (Blk × Certificate)) : StoreState :=
  items.foldl (fun s p => commitOne s p.1 p.2) emptyStore

/-- C5: `LastCertificate` is `nil` before any block is committed, and
after committing a sequence of blocks in order it returns exactly the
certificate passed with the last `SaveBlock` — the singleton record is
overwritten on every commit. -/
theorem lastCertificate_run (items : List (Blk × Certificate)) (blk : Blk)
    (cert : Certificate) (h1 : cert.height < 2 ^ 32) (h2 : cert.payload.length < 2 ^ 32) :
    LastCertificate emptyStore = none ∧
    LastCertificate (commitRun (items ++ [(blk, cert)])) = some cert := by
  refine ⟨rfl, ?_⟩
  rw [commitRun, List.foldl_append, List.foldl_cons, List.foldl_nil]
  exact lastCertificate_commitOne _ blk cert h1 h2

/-- Witness for C5: two commits; the last certificate is the second one. -/
theorem lastCertificate_run_witness :
    LastCertificate emptyStore = none ∧
    LastCertificate (commitRun ([(demoBlk0, demoCert0)] ++ [(demoBlk0, ⟨2, [9]⟩)]))
      = some ⟨2, [9]⟩ :=
  lastCertificate_run [(demoBlk0, demoCert0)] demoBlk0 ⟨2, [9]⟩ (by decide) (by decide)

theorem commitOne_tryGet_txPos (s : StoreState) (blk : Blk) (cert : Certificate)
    (hnd : (blk.txs.map Tx.id).Nodup) (p : TxID × TxPos)
    (hp : p ∈ txRecords cert.height (blk.hashBytes.length + blk.headerData.length) blk.txs) :
    tryGet (commitOne s blk cert).db (Key.txPosK p.1) = some (posEncode p.2) := by
  have hnd' : ((txRecords cert.height (blk.hashBytes.length + blk.headerData.length)
      blk.txs).map Prod.fst).Nodup := by
    rw [txRecords_fst]
    exact hnd
  rw [commitOne_db, tryGet_cons_ne _ _ _ _ (by simp), tryGet_append,
    tryGet_recs_mem _ hnd' p hp, Option.or_some]

theorem commitOne_tryGet_txPos_none (blk : Blk) (cert : Certificate) (id : TxID)
    (hid : id ∉ blk.txs.map Tx.id) :
    tryGet (commitOne emptyStore blk cert).db (Key.txPosK id) = none := by
  have hid' : id ∉ (txRecords cert.height (blk.hashBytes.length + blk.headerData.length)
      blk.txs).map Prod.fst := by
    rw [txRecords_fst]
    exact hid
  rw [commitOne_db, tryGet_cons_ne _ _ _ _ (by simp), tryGet_append,
    tryGet_recs_not_mem _ id hid', Option.none_or,
    tryGet_cons_ne _ _ _ _ (by simp), tryGet_cons_ne _ _ _ _ (by simp)]
  rfl

/-- C2 amended: for every transaction of a block committed from a fresh
store, the stored position record addresses the hash-prefixed stored
block value: `Transaction(T.id)` returns exactly `value[o : o+l)`, which
equals `Block(h).Data[o-32 : o+l-32)` (the recorded offsets include the
32-byte hash prefix), and an id never written returns NotFound. -/
theorem transaction_roundtrip (blk : Blk) (cert : Certificate)
    (hlen : blk.hashBytes.length = 32)
    (hnd : (blk.txs.map Tx.id).Nodup)
    (hhdr : 5 ≤ blk.headerData.length)
    (hbound : 32 + blk.headerData.length + ((blk.txs.map Tx.data).flatten).length < 2 ^ 32)
    (hh : cert.height < 2 ^ 32) :
    (∀ t ∈ blk.txs, ∃ o l,
        txStoreTx (commitOne emptyStore blk cert).db t.id = some ⟨cert.height, o, l⟩ ∧
        l = t.data.length ∧ 32 ≤ o ∧
        o + l ≤ (blk.hashBytes ++ serializeBody blk).length ∧
        sliceBytes (blk.hashBytes ++ serializeBody blk) o (o + l) = t.data ∧
        sliceBytes (serializeBody blk) (o - 32) (o + l - 32) = t.data ∧
        ∃ bt, Transaction (commitOne emptyStore blk cert) t.id
          = TxResult.ok cert.height bt t.data) ∧
    (∀ id, id ∉ blk.txs.map Tx.id →
        Transaction (commitOne emptyStore blk cert) id = TxResult.notFound) := by
  have hpre : (blk.hashBytes ++ blk.headerData).length
      = blk.hashBytes.length + blk.headerData.length := List.length_append _ _
  have hvalue : blk.hashBytes ++ serializeBody blk
      = (blk.hashBytes ++ blk.headerData) ++ (blk.txs.map Tx.data).flatten := by
    simp [serializeBody, List.append_assoc]
  have hvlen : (blk.hashBytes ++ serializeBody blk).length
      = 32 + blk.headerData.length + ((blk.txs.map Tx.data).flatten).length := by
    rw [hvalue, List.length_append, hpre, hlen]
  constructor
  · intro t ht
    obtain ⟨p, hp, h1, h2, h3, h4, h5, h6⟩ :=
      txRecords_spec cert.height blk.txs (blk.hashBytes ++ blk.headerData) t ht
    rw [hpre] at hp
    have hofull : p.2.offset + p.2.length
        ≤ 32 + blk.headerData.length + ((blk.txs.map Tx.data).flatten).length := by
      rw [hpre, hlen] at h5
      exact h5
    have ho32 : 32 ≤ p.2.offset := by
      rw [hpre, hlen] at h4
      omega
    have hpos : tryGet (commitOne emptyStore blk cert).db (Key.txPosK t.id)
        = some (posEncode p.2) := by
      rw [← h1]
      exact commitOne_tryGet_txPos emptyStore blk cert hnd p hp
    have hdec : posDecode (posEncode p.2) = some p.2 :=
      posDecode_posEncode p.2 (by omega) (by omega) (by omega)
    have htx : txStoreTx (commitOne emptyStore blk cert).db t.id = some p.2 := by
      simp only [txStoreTx, hpos]
      exact hdec
    have hslice : sliceBytes (blk.hashBytes ++ serializeBody blk) p.2.offset
        (p.2.offset + p.2.length) = t.data := by
      rw [hvalue]
      exact h6
    have hslice2 : sliceBytes (serializeBody blk) (p.2.offset - 32)
        (p.2.offset + p.2.length - 32) = t.data := by
      have hdrop : (blk.hashBytes ++ serializeBody blk).drop 32 = serializeBody blk :=
        List.drop_left' hlen
      rw [← hdrop, sliceBytes_shift _ 32 _ _ ho32, hslice]
    have hblk : tryGet (commitOne emptyStore blk cert).db (Key.blockK p.2.height)
        = some (blk.hashBytes ++ serializeBody blk) := by
      rw [h2]
      exact commitOne_tryGet_block emptyStore blk cert
    refine ⟨p.2.offset, p.2.length, ?_, h3, ho32, by omega, hslice, hslice2, ?_⟩
    · rw [htx, ← h2]
    · have hmod1 : (p.2.offset + p.2.length) % 2 ^ 32 = p.2.offset + p.2.length :=
        Nat.mod_eq_of_lt (by omega)
      have hmod2 : (blk.hashBytes ++ serializeBody blk).length % 2 ^ 32
          = (blk.hashBytes ++ serializeBody blk).length :=
        Nat.mod_eq_of_lt (by omega)
      refine ⟨(match dec32 ((blk.hashBytes ++ serializeBody blk).drop (hashSize + 1)) with
        | none => 0
        | some (n, _) => n), ?_⟩
      simp only [Transaction, htx, hblk, hmod1, hmod2]
      rw [if_neg (by omega), if_neg (by simp only [hashSize]; omega),
        if_pos ⟨by omega, by omega⟩, h2, hslice]
  · intro id hid
    have hnone : txStoreTx (commitOne emptyStore blk cert).db id = none := by
      rw [txStoreTx, commitOne_tryGet_txPos_none blk cert id hid]
    simp only [Transaction, hnone]

/-- The transaction of the concrete scenario: id 77, 120 bytes occupying
bytes 40..159 of the serialized block. -/
def demoTx : Tx := ⟨77, (List.range 120).map (fun n => n + 100)⟩

/-- A block with a 40-byte header part and the single transaction
`demoTx`, so the stored position record is `(height 1, offset 72,
length 120)`. -/
def demoBlk1 : Blk := ⟨List.replicate 32 1, (List.range 40).map (fun n => n + 2), [demoTx]⟩

/-- Certificate for `demoBlk1` at height 1. -/
def demoCert1 : Certificate := ⟨1, [3]⟩

/-- The store after committing `demoBlk1` at height 1 from a fresh
store. -/
def demoCommitted : StoreState := commitOne emptyStore demoBlk1 demoCert1

set_option maxRecDepth 100000 in
/-- C2 counterexample: the committed transaction is recorded with byte
range `[72, 72+120)`, and the bytes `Transaction` returns are NOT
`Block(1).Data[72:192)` — the recorded offsets address the hash-prefixed
stored value, 32 bytes before the `Data` view the claim slices. -/
theorem transaction_data_mismatch :
    txStoreTx demoCommitted.db 77 = some ⟨1, 72, 120⟩ ∧
    Transaction demoCommitted 77 = TxResult.ok 1 100992003 demoTx.data ∧
    Block demoCommitted 1 = some ⟨demoBlk1.hashBytes, 1, serializeBody demoBlk1⟩ ∧
    sliceBytes (serializeBody demoBlk1) 72 (72 + 120) ≠ demoTx.data := by
  decide

set_option maxRecDepth 100000 in
/-- Witness for C2 amended at the concrete scenario: the record is
`(1, 72, 120)`, `Transaction` returns the 120 transaction bytes, equal
to `Block(1).Data[40:160)`, and an unknown id is NotFound. -/
theorem transaction_roundtrip_witness :
    (∃ o l, txStoreTx demoCommitted.db 77 = some ⟨1, o, l⟩ ∧
      l = demoTx.data.length ∧ 32 ≤ o ∧
      o + l ≤ (demoBlk1.hashBytes ++ serializeBody demoBlk1).length ∧
      sliceBytes (demoBlk1.hashBytes ++ serializeBody demoBlk1) o (o + l) = demoTx.data ∧
      sliceBytes (serializeBody demoBlk1) (o - 32) (o + l - 32) = demoTx.data ∧
      ∃ bt, Transaction demoCommitted 77 = TxResult.ok 1 bt demoTx.data) ∧
    Transaction demoCommitted 99 = TxResult.notFound ∧
    sliceBytes (serializeBody demoBlk1) 40 160 = demoTx.data := by
  have h := transaction_roundtrip demoBlk1 demoCert1 (by decide) (by decide) (by decide)
    (by decide) (by decide)
  refine ⟨?_, h.2 99 (by decide), by decide⟩
  obtain ⟨o, l, h1, h2, h3, h4, h5, h6, h7⟩ := h.1 demoTx (by decide)
  exact ⟨o, l, h1, h2, h3, h4, h5, h6, h7⟩

theorem tableLookup_upsert_self {α : Type} (t : List (Nat × α)) (a : Nat) (v : α) :
    tableLookup (tableUpsert t a v) a = some v := by
  induction t with
  | nil => simp [tableUpsert, tableLookup, List.find?]
  | cons q t ih =>
      obtain ⟨b, w⟩ := q
      by_cases h1 : a < b
      · simp [tableUpsert, h1, tableLookup, List.find?]
      · by_cases h2 : a = b
        · simp [tableUpsert, h1, h2, tableLookup, List.find?]
        · simp only [tableUpsert, if_neg h1, if_neg h2]
          have hb : (decide (b = a)) = false := by
            simp only [decide_eq_false_iff_not]
            omega
          simp only [tableLookup, List.find?, hb]
          exact ih

theorem tableLookup_upsert_ne {α : Type} (t : List (Nat × α)) (a x : Nat) (v : α)
    (hx : x ≠ a) :
    tableLookup (tableUpsert t a v) x = tableLookup t x := by
  induction t with
  | nil =>
      have ha : (decide (a = x)) = false := by
        simp only [decide_eq_false_iff_not]
        omega
      simp [tableUpsert, tableLookup, List.find?, ha]
  | cons q t ih =>
      obtain ⟨b, w⟩ := q
      have ha : (decide (a = x)) = false := by
        simp only [decide_eq_false_iff_not]
        omega
      by_cases h1 : a < b
      · simp only [tableUpsert, if_pos h1, tableLookup, List.find?, ha]
      · by_cases h2 : a = b
        · subst h2
          simp only [tableUpsert, if_neg h1, if_pos rfl, tableLookup, List.find?, ha]
        · simp only [tableUpsert, if_neg h1, if_neg h2, tableLookup, List.find?]
          cases hd : decide (b = x) with
          | true => rfl
          | false => exact ih

theorem mem_keys_upsert {α : Type} (t : List (Nat × α)) (a x : Nat) (v : α) :
    x ∈ (tableUpsert t a v).map Prod.fst ↔ x = a ∨ x ∈ t.map Prod.fst := by
  induction t with
  | nil => simp [tableUpsert]
  | cons q t ih =>
      obtain ⟨b, w⟩ := q
      by_cases h1 : a < b
      · simp [tableUpsert, h1]
      · by_cases h2 : a = b
        · subst h2
          simp [tableUpsert, h1]
        · simp only [tableUpsert, if_neg h1, if_neg h2, List.map_cons, List.mem_cons, ih]
          tauto

theorem tableLookup_eq_none {α : Type} (t : List (Nat × α)) (a : Nat) :
    tableLookup t a = none ↔ a ∉ t.map Prod.fst := by
  induction t with
  | nil => simp [tableLookup]
  | cons q t ih =>
      obtain ⟨b, w⟩ := q
      by_cases hb : b = a
      · subst hb
        constructor
        · intro h
          simp [tableLookup, List.find?] at h
        · intro h
          exact absurd (by simp) h
      · have he : tableLookup ((b, w) :: t) a = tableLookup t a := by
          have hd : (decide (b = a)) = false := by
            simp only [decide_eq_false_iff_not]
            exact hb
          simp only [tableLookup, List.find?, hd]
        rw [he, ih]
        simp only [List.map_cons, List.mem_cons]
        constructor
        · intro h hc
          rcases hc with hc | hc
          · exact hb hc.symm
          · exact h hc
        · intro h hc
          exact h (Or.inr hc)

theorem ordered_upsert {α : Type} (t : List (Nat × α)) (a : Nat) (v : α)
    (h : t.Pairwise (fun p q => p.1 < q.1)) :
    (tableUpsert t a v).Pairwise (fun p q => p.1 < q.1) := by
  induction t with
  | nil => simp [tableUpsert]
  | cons q t ih =>
      obtain ⟨b, w⟩ := q
      rw [List.pairwise_cons] at h
      obtain ⟨hb, ht⟩ := h
      by_cases h1 : a < b
      · simp only [tableUpsert, if_pos h1]
        rw [List.pairwise_cons]
        refine ⟨?_, by rw [List.pairwise_cons]; exact ⟨hb, ht⟩⟩
        intro q hq
        rcases List.mem_cons.mp hq with rfl | hq'
        · exact h1
        · exact Nat.lt_trans h1 (hb q hq')
      · by_cases h2 : a = b
        · subst h2
          have he : tableUpsert ((a, w) :: t) a v = (a, v) :: t := by
            simp [tableUpsert, h1]
          rw [he, List.pairwise_cons]
          exact ⟨hb, ht⟩
        · simp only [tableUpsert, if_neg h1, if_neg h2]
          rw [List.pairwise_cons]
          refine ⟨?_, ih ht⟩
          intro q hq
          have := (mem_keys_upsert t a q.1 v).mp (List.mem_map_of_mem Prod.fst hq)
          rcases this with he | hq'
          · omega
          · simp only [List.mem_map] at hq'
            obtain ⟨r, hr, hre⟩ := hq'
            have := hb r hr
            omega

theorem length_upsert_of_none {α : Type} (t : List (Nat × α)) (a : Nat) (v : α)
    (h : tableLookup t a = none) :
    (tableUpsert t a v).length = t.length + 1 := by
  induction t with
  | nil => rfl
  | cons q t ih =>
      obtain ⟨b, w⟩ := q
      have hmem := (tableLookup_eq_none _ _).mp h
      simp only [List.map_cons, List.mem_cons] at hmem
      push_neg at hmem
      by_cases h1 : a < b
      · simp [tableUpsert, h1]
      · by_cases h2 : a = b
        · exact absurd h2 hmem.1
        · simp only [tableUpsert, if_neg h1, if_neg h2, List.length_cons]
          rw [ih ((tableLookup_eq_none _ _).mpr hmem.2)]

theorem length_upsert_of_mem {α : Type} (t : List (Nat × α)) (a : Nat) (v : α)
    (hord : t.Pairwise (fun p q => p.1 < q.1)) (h : a ∈ t.map Prod.fst) :
    (tableUpsert t a v).length = t.length := by
  induction t with
  | nil => cases h
  | cons q t ih =>
      obtain ⟨b, w⟩ := q
      rw [List.pairwise_cons] at hord
      simp only [List.map_cons, List.mem_cons] at h
      by_cases h1 : a < b
      · exfalso
        rcases h with rfl | h'
        · omega
        · simp only [List.mem_map] at h'
          obtain ⟨r, hr, rfl⟩ := h'
          have := hord.1 r hr
          omega
      · by_cases h2 : a = b
        · simp [tableUpsert, h1, h2]
        · simp only [tableUpsert, if_neg h1, if_neg h2, List.length_cons]
          rcases h with h' | h'
          · exact absurd h' h2
          · rw [ih hord.2 h']

theorem visitWhile_all {α : Type} (t : List (Nat × α)) :
    visitWhile t (fun _ _ => false) = t.map Prod.fst := by
  induction t with
  | nil => rfl
  | cons q t ih =>
      obtain ⟨a, v⟩ := q
      simp [visitWhile, ih]

/-- The store invariant maintained by account updates: the table is in
strictly increasing key order and the counter matches its cardinality. -/
def accTableOrdered (st : AccountStore) : Prop :=
  st.table.Pairwise (fun p q => p.1 < q.1) ∧ st.total = st.table.length

theorem accInv_update (st : AccountStore) (h : accTableOrdered st) (a : Addr)
    (acc : AccountData) : accTableOrdered (updateAccount st a acc) := by
  refine ⟨ordered_upsert _ _ _ h.1, ?_⟩
  cases hh : hasAccount st a with
  | true =>
      have hmem : a ∈ st.table.map Prod.fst := by
        by_contra hm
        have := (tableLookup_eq_none st.table a).mpr hm
        rw [hasAccount, this] at hh
        simp at hh
      simp only [updateAccount, hh, if_true]
      rw [length_upsert_of_mem _ _ _ h.1 hmem]
      exact h.2
  | false =>
      have hnone : tableLookup st.table a = none := by
        cases hl : tableLookup st.table a with
        | none => rfl
        | some w =>
            rw [hasAccount, hl] at hh
            simp at hh
      simp only [updateAccount, hh, Bool.false_eq_true, if_false]
      rw [length_upsert_of_none _ _ _ hnone, h.2]

theorem accInv_fold (ops : List (Addr × AccountData)) :
    ∀ st : AccountStore, accTableOrdered st →
      accTableOrdered (ops.foldl (fun st p => updateAccount st p.1 p.2) st) := by
  induction ops with
  | nil => intro st h; exact h
  | cons p rest ih =>
      intro st h
      rw [List.foldl_cons]
      exact ih _ (accInv_update st h p.1 p.2)

theorem keys_fold_account (ops : List (Addr × AccountData)) :
    ∀ (st : AccountStore) (x : Addr),
      x ∈ ((ops.foldl (fun st p => updateAccount st p.1 p.2) st).table.map Prod.fst)
        ↔ x ∈ st.table.map Prod.fst ∨ x ∈ ops.map Prod.fst := by
  induction ops with
  | nil => intro st x; simp
  | cons p rest ih =>
      intro st x
      rw [List.foldl_cons, ih]
      have he : x ∈ (updateAccount st p.1 p.2).table.map Prod.fst
          ↔ x = p.1 ∨ x ∈ st.table.map Prod.fst := mem_keys_upsert _ _ _ _
      rw [he]
      simp only [List.map_cons, List.mem_cons]
      tauto

theorem nodup_same_mem_length (l₁ l₂ : List Nat) (h₁ : l₁.Nodup) (h₂ : l₂.Nodup)
    (h : ∀ x, x ∈ l₁ ↔ x ∈ l₂) : l₁.length = l₂.length :=
  ((List.perm_ext_iff_of_nodup h₁ h₂).mpr h).length_eq

/-- C7: after any sequence of `UpdateAccount` calls, `TotalAccounts`
equals the number of distinct addresses ever passed; updating an
already-seen address leaves the count unchanged; and a full
`IterateAccounts` pass visits exactly the set of updated addresses, each
exactly once. -/
theorem account_totals_iterate (ops : List (Addr × AccountData)) :
    TotalAccounts (applyAccountOps ops) = (ops.map Prod.fst).dedup.length ∧
    (IterateAccounts (applyAccountOps ops) (fun _ _ => false)).Nodup ∧
    (∀ a, a ∈ IterateAccounts (applyAccountOps ops) (fun _ _ => false)
        ↔ a ∈ ops.map Prod.fst) ∧
    (∀ (st : AccountStore) (a : Addr) (acc : AccountData),
        hasAccount st a = true →
          TotalAccounts (updateAccount st a acc) = TotalAccounts st) := by
  have hinv : accTableOrdered (applyAccountOps ops) :=
    accInv_fold ops AccountStore.empty ⟨List.Pairwise.nil, rfl⟩
  have hkeys : ∀ x, x ∈ (applyAccountOps ops).table.map Prod.fst ↔ x ∈ ops.map Prod.fst := by
    intro x
    rw [applyAccountOps, keys_fold_account]
    simp [AccountStore.empty]
  have hnd : ((applyAccountOps ops).table.map Prod.fst).Nodup := by
    have hp : ((applyAccountOps ops).table.map Prod.fst).Pairwise (fun a b => a ≠ b) := by
      rw [List.pairwise_map]
      exact hinv.1.imp Nat.ne_of_lt
    exact hp
  refine ⟨?_, ?_, ?_, ?_⟩
  · calc TotalAccounts (applyAccountOps ops)
        = (applyAccountOps ops).table.length := hinv.2
      _ = ((applyAccountOps ops).table.map Prod.fst).length :=
          (List.length_map _ _).symm
      _ = (ops.map Prod.fst).dedup.length :=
          nodup_same_mem_length _ _ hnd (List.nodup_dedup _)
            (fun x => by rw [hkeys x, List.mem_dedup])
  · rw [IterateAccounts, visitWhile_all]
    exact hnd
  · intro a
    rw [IterateAccounts, visitWhile_all]
    exact hkeys a
  · intro st a acc hh
    simp [TotalAccounts, updateAccount, hh]

/-- Witness for C7 at a concrete call sequence with a repeated address. -/
theorem account_totals_iterate_witness :
    TotalAccounts (applyAccountOps [(1, [10]), (2, [20]), (1, [30])]) = 2 ∧
    (∀ a, a ∈ IterateAccounts (applyAccountOps [(1, [10]), (2, [20]), (1, [30])])
        (fun _ _ => false) ↔ a ∈ ([1, 2, 1] : List Addr)) ∧
    TotalAccounts (updateAccount (applyAccountOps [(1, [10]), (2, [20]), (1, [30])]) 1 [40])
      = TotalAccounts (applyAccountOps [(1, [10]), (2, [20]), (1, [30])]) := by
  have h := account_totals_iterate [(1, [10]), (2, [20]), (1, [30])]
  refine ⟨?_, ?_, ?_⟩
  · rw [h.1]
    decide
  · intro a
    exact h.2.2.1 a
  · exact h.2.2.2 _ 1 [40] (by decide)

theorem le_maxValNum (t : List (Addr × ValInfo)) (q : Addr × ValInfo) (hq : q ∈ t) :
    q.2.num ≤ maxValNum t := by
  induction t with
  | nil => cases hq
  | cons r rest ih =>
      rcases List.mem_cons.mp hq with rfl | hq'
      · simp only [maxValNum, List.foldr_cons]
        exact Nat.le_max_left _ _
      · simp only [maxValNum, List.foldr_cons]
        exact Nat.le_trans (ih hq') (Nat.le_max_right _ _)

/-- The store invariant maintained by validator updates: the table is in
strictly increasing key order and the counter matches its cardinality. -/
def valTableOrdered (st : ValidatorStore) : Prop :=
  st.table.Pairwise (fun p q => p.1 < q.1) ∧ st.total = st.table.length

theorem valInv_update (st : ValidatorStore) (h : valTableOrdered st) (a : Addr)
    (p : Bytes) : valTableOrdered (updateValidator st a p) := by
  cases hv : valOf st a with
  | some old =>
      simp only [updateValidator, hv]
      refine ⟨ordered_upsert _ _ _ h.1, ?_⟩
      have hmem : a ∈ st.table.map Prod.fst := by
        by_contra hm
        have := (tableLookup_eq_none st.table a).mpr hm
        rw [valOf, this] at hv
        cases hv
      rw [length_upsert_of_mem _ _ _ h.1 hmem]
      exact h.2
  | none =>
      simp only [updateValidator, hv]
      refine ⟨ordered_upsert _ _ _ h.1, ?_⟩
      rw [length_upsert_of_none _ _ _ hv, h.2]

theorem valInv_fold (ops : List (Addr × Bytes)) :
    ∀ st : ValidatorStore, valTableOrdered st →
      valTableOrdered (ops.foldl (fun st p => updateValidator st p.1 p.2) st) := by
  induction ops with
  | nil => intro st h; exact h
  | cons p rest ih =>
      intro st h
      rw [List.foldl_cons]
      exact ih _ (valInv_update st h p.1 p.2)

theorem keys_update_validator (st : ValidatorStore) (a : Addr) (p : Bytes) (x : Addr) :
    x ∈ (updateValidator st a p).table.map Prod.fst
      ↔ x = a ∨ x ∈ st.table.map Prod.fst := by
  cases hv : valOf st a <;> simp only [updateValidator, hv] <;>
    exact mem_keys_upsert _ _ _ _

theorem keys_fold_validator (ops : List (Addr × Bytes)) :
    ∀ (st : ValidatorStore) (x : Addr),
      x ∈ ((ops.foldl (fun st p => updateValidator st p.1 p.2) st).table.map Prod.fst)
        ↔ x ∈ st.table.map Prod.fst ∨ x ∈ ops.map Prod.fst := by
  induction ops with
  | nil => intro st x; simp
  | cons p rest ih =>
      intro st x
      rw [List.foldl_cons, ih, keys_update_validator]
      simp only [List.map_cons, List.mem_cons]
      tauto

/-- C8: validator numbers are fresh and strictly above every number
already in the table at first insertion (hence never reused), re-saving
an existing validator keeps its originally assigned number and the
count, other addresses are untouched, and `TotalValidators` counts
distinct addresses only. -/
theorem validator_numbers (ops : List (Addr × Bytes)) :
    TotalValidators (applyValidatorOps ops) = (ops.map Prod.fst).dedup.length ∧
    (∀ (st : ValidatorStore) (a : Addr) (p : Bytes) (i : ValInfo), valOf st a = some i →
        valOf (updateValidator st a p) a = some ⟨i.num, p⟩ ∧
        TotalValidators (updateValidator st a p) = TotalValidators st) ∧
    (∀ (st : ValidatorStore) (a : Addr) (p : Bytes), valOf st a = none →
        valOf (updateValidator st a p) a = some ⟨maxValNum st.table + 1, p⟩ ∧
        ∀ q ∈ st.table, q.2.num < maxValNum st.table + 1) ∧
    (∀ (st : ValidatorStore) (a x : Addr) (p : Bytes), x ≠ a →
        valOf (updateValidator st a p) x = valOf st x) := by
  refine ⟨?_, ?_, ?_, ?_⟩
  · have hinv : valTableOrdered (applyValidatorOps ops) :=
      valInv_fold ops ValidatorStore.empty ⟨List.Pairwise.nil, rfl⟩
    have hkeys : ∀ x, x ∈ (applyValidatorOps ops).table.map Prod.fst
        ↔ x ∈ ops.map Prod.fst := by
      intro x
      rw [applyValidatorOps, keys_fold_validator]
      simp [ValidatorStore.empty]
    have hnd : ((applyValidatorOps ops).table.map Prod.fst).Nodup := by
      have hp : ((applyValidatorOps ops).table.map Prod.fst).Pairwise (fun a b => a ≠ b) := by
        rw [List.pairwise_map]
        exact hinv.1.imp Nat.ne_of_lt
      exact hp
    calc TotalValidators (applyValidatorOps ops)
        = (applyValidatorOps ops).table.length := hinv.2
      _ = ((applyValidatorOps ops).table.map Prod.fst).length :=
          (List.length_map _ _).symm
      _ = (ops.map Prod.fst).dedup.length :=
          nodup_same_mem_length _ _ hnd (List.nodup_dedup _)
            (fun x => by rw [hkeys x, List.mem_dedup])
  · intro st a p i hv
    constructor
    · simp only [updateValidator, hv]
      exact tableLookup_upsert_self _ _ _
    · simp [updateValidator, hv, TotalValidators]
  · intro st a p hv
    constructor
    · simp only [updateValidator, hv]
      exact tableLookup_upsert_self _ _ _
    · intro q hq
      exact Nat.lt_succ_of_le (le_maxValNum st.table q hq)
  · intro st a x p hx
    cases hv : valOf st a <;> simp only [updateValidator, hv] <;>
      exact tableLookup_upsert_ne _ _ _ _ hx

/-- Witness for C8 at a concrete call sequence: address 5 gets number 1,
address 3 gets number 2, re-saving 5 keeps number 1, a fresh address
gets one past the maximum, and other addresses are untouched. -/
theorem validator_numbers_witness :
    TotalValidators (applyValidatorOps [(5, [1]), (3, [2]), (5, [3])]) = 2 ∧
    valOf (updateValidator (applyValidatorOps [(5, [1]), (3, [2])]) 5 [9]) 5
      = some ⟨1, [9]⟩ ∧
    valOf (updateValidator (applyValidatorOps [(5, [1]), (3, [2])]) 7 [9]) 7
      = some ⟨maxValNum (applyValidatorOps [(5, [1]), (3, [2])]).table + 1, [9]⟩ ∧
    valOf (updateValidator (applyValidatorOps [(5, [1]), (3, [2])]) 7 [9]) 3
      = valOf (applyValidatorOps [(5, [1]), (3, [2])]) 3 := by
  have h := validator_numbers [(5, [1]), (3, [2]), (5, [3])]
  refine ⟨by rw [h.1]; decide, ?_, ?_, ?_⟩
  · exact (h.2.1 (applyValidatorOps [(5, [1]), (3, [2])]) 5 [9] ⟨1, [1]⟩ (by decide)).1
  · exact (h.2.2.1 (applyValidatorOps [(5, [1]), (3, [2])]) 7 [9] (by decide)).1
  · exact h.2.2.2 (applyValidatorOps [(5, [1]), (3, [2])]) 7 3 [9] (by decide)
